import Mathlib

/-!
Verification of the hero-vida-insight-engine ingestion and retrieval
pipeline.  JavaScript strings are modelled as `List Char`; the two Deno
serve handlers (`process-file` and `query-rag`) are modelled as pure
functions over explicit environments describing the outcomes of their
network and database calls, threading the database state explicitly.
-/

namespace HeroVida

/-- JavaScript regular-expression class `\s` restricted to the ASCII
whitespace characters that can occur in the modelled texts. -/
def isWs (c : Char) : Bool :=
  c == ' ' || c == '\t' || c == '\n' || c == '\r' || c == '\x0b' || c == '\x0c'

/-- Scanner for JavaScript `text.split(/\s+/)`.  `cur` is the reversed
accumulator of the current token; `sep` records whether the scanner is
inside a separator run (so further whitespace is absorbed into the same
separator). -/
def splitWsAux : List Char → List Char → Bool → List (List Char)
  | [], cur, _ => [cur.reverse]
  | c :: cs, cur, sep =>
    if isWs c then
      if sep then splitWsAux cs [] true
      else cur.reverse :: splitWsAux cs [] true
    else splitWsAux cs (c :: cur) false

/-- JavaScript `text.split(/\s+/)`: maximal non-whitespace runs, with an
empty token at the front for leading whitespace, an empty token at the
back for trailing whitespace, and the single empty token for the empty
string. -/
def splitWs (s : List Char) : List (List Char) :=
  splitWsAux s [] false

/-- JavaScript `words.join(' ')`. -/
def joinSp (ws : List (List Char)) : List Char :=
  List.intercalate [' '] ws

/-- Loop body of `chunkText`: `cur` is `currentChunk`; a chunk is pushed
as soon as `currentChunk.length >= maxTokens`, and a trailing non-empty
`currentChunk` is pushed after the loop. -/
def chunkTextAux (m : Nat) : List (List Char) → List (List Char) → List (List Char)
  | [], cur => if 0 < cur.length then [joinSp cur] else []
  | w :: ws, cur =>
    if m ≤ (cur ++ [w]).length then joinSp (cur ++ [w]) :: chunkTextAux m ws []
    else chunkTextAux m ws (cur ++ [w])

/-- `chunkText(text, maxTokens)` from `process-file/index.ts`: split the
text on whitespace runs and group the resulting tokens into chunks of
`maxTokens` tokens joined with single spaces. -/
def chunkText (text : List Char) (maxTokens : Nat) : List (List Char) :=
  chunkTextAux maxTokens (splitWs text) []

/-- The grouping performed by `chunkText` before the chunks are joined:
same recursion, emitting the token groups themselves. -/
def chunkWordsAux (m : Nat) : List (List Char) → List (List Char) → List (List (List Char))
  | [], cur => if 0 < cur.length then [cur] else []
  | w :: ws, cur =>
    if m ≤ (cur ++ [w]).length then (cur ++ [w]) :: chunkWordsAux m ws []
    else chunkWordsAux m ws (cur ++ [w])

/-- Token groups underlying `chunkText`. -/
def chunkWords (ws : List (List Char)) (m : Nat) : List (List (List Char)) :=
  chunkWordsAux m ws []

/-- A row of the `documents` table, as inserted by `process-file`:
`{ name, type, content, metadata: { originalUrl } }` plus its generated
identifier. -/
structure DocumentRow where
  id : Nat
  name : String
  type : String
  content : List Char
  originalUrl : String
deriving DecidableEq

/-- A row of the `embeddings` table, as pushed by the per-chunk loop:
`{ document_id, content, embedding, metadata: { chunk_index } }`. -/
structure EmbeddingRow where
  document_id : Nat
  content : List Char
  embedding : List Int
  chunk_index : Nat
deriving DecidableEq

/-- The persistent database state: the two tables, rows in insertion
order. -/
structure DB where
  documents : List DocumentRow
  embeddings : List EmbeddingRow
deriving DecidableEq

/-- Outcomes of the external calls made by one `process-file` run.
`download` is the storage download of the file, carrying the bytes
decoded as text (`fileData.text()`); `docInsert` is the error, if any, of
the `documents` insert; `embed i` is the outcome of the embedding call
for the chunk at position `i` (`none` covers a thrown fetch, a non-ok
response, and a response missing `embedding.values`); `embedInsert` is
the error, if any, of the `embeddings` batch insert. -/
structure IngestEnv where
  download : Except String (List Char)
  docInsert : Option String
  nextDocId : Nat
  geminiKeyPresent : Bool
  embed : Nat → Option (List Int)
  embedInsert : Option String

/-- Response of the `process-file` handler: the success JSON
`{ success, documentId, chunksProcessed }` or the catch-all 500
`{ error }`. -/
inductive IngestResult where
  | ok (documentId : Nat) (chunksProcessed : Nat)
  | err (msg : String)
deriving DecidableEq

/-- Text extraction dispatch of `process-file`: `text` starts as the
empty string, CSV and Excel types read the bytes as text, the PDF branch
also reads the bytes as text (the source comments that a PDF parser
would be needed), and every other type leaves `text` empty. -/
def extractText (fileType : String) (fileData : List Char) : List Char :=
  if fileType == "text/csv" || fileType == "application/vnd.ms-excel" then fileData
  else if fileType == "application/pdf" then fileData
  else []

/-- The per-chunk embedding loop: for each chunk, on a successful
embedding call push `{ document_id, content, embedding, metadata:
{ chunk_index: embeddings.length } }` onto the accumulator, otherwise
log and continue. `i` is the position of the next chunk. -/
def buildEmbeddingsAux (d : Nat) (f : Nat → Option (List Int)) :
    List (List Char) → Nat → List EmbeddingRow → List EmbeddingRow
  | [], _, acc => acc
  | c :: cs, i, acc =>
    match f i with
    | some v => buildEmbeddingsAux d f cs (i + 1) (acc ++ [⟨d, c, v, acc.length⟩])
    | none => buildEmbeddingsAux d f cs (i + 1) acc

/-- Closed form of the rows produced by the embedding loop: `i` is the
position of the next chunk and `base` the number of rows already
accumulated, which becomes the `chunk_index` of the next successful
row. -/
def embRowsSpec (d : Nat) (f : Nat → Option (List Int)) :
    List (List Char) → Nat → Nat → List EmbeddingRow
  | [], _, _ => []
  | c :: cs, i, base =>
    match f i with
    | some v => ⟨d, c, v, base⟩ :: embRowsSpec d f cs (i + 1) (base + 1)
    | none => embRowsSpec d f cs (i + 1) base

/-- Number of successful embedding calls among the chunk positions
before `j`: the `chunk_index` stored for the chunk at position `j`. -/
def chunkIndexAt (f : Nat → Option (List Int)) (j : Nat) : Nat :=
  (List.range j).countP (fun k => (f k).isSome)

/-- The `process-file` serve handler: download, extract text, insert the
document row, chunk with size 500, embed each chunk (skipping failures),
batch-insert the successful embeddings when there are any, and report
`{ documentId, chunksProcessed }`; any thrown error becomes an `err`
response, leaving the database as it was at the throw. -/
def processFile (env : IngestEnv) (fileName fileUrl fileType : String) (db : DB) :
    DB × IngestResult :=
  match env.download with
  | .error e => (db, .err ("Failed to download file: " ++ e))
  | .ok fileData =>
    let text := extractText fileType fileData
    match env.docInsert with
    | some e => (db, .err ("Failed to store document: " ++ e))
    | none =>
      let doc : DocumentRow := ⟨env.nextDocId, fileName, fileType, text, fileUrl⟩
      let db1 : DB := ⟨db.documents ++ [doc], db.embeddings⟩
      let chunks := chunkText text 500
      if !env.geminiKeyPresent then (db1, .err "Gemini API key not configured")
      else
        let embeddings := buildEmbeddingsAux doc.id env.embed chunks 0 []
        if embeddings.length > 0 then
          match env.embedInsert with
          | some e => (db1, .err ("Failed to store embeddings: " ++ e))
          | none => (⟨db1.documents, db1.embeddings ++ embeddings⟩, .ok doc.id embeddings.length)
        else (db1, .ok doc.id 0)

/-- Outcomes of the external calls made by one `query-rag` run.
`questionEmbedOk` is `embeddingResponse.ok`; `questionVector` is
`embeddingResult.embedding?.values`; `searchError` is the error, if any,
of the `match_documents` RPC and `searchData` its returned chunk
contents otherwise; `documents` is the `documents` table contents in
insertion (creation) order, queried by the fallback with
`select('content').limit(3)` and no ordering clause; `generateOk` is
`generateResponse.ok` and `generateAnswer` maps the prompt to
`result.candidates?.[0]?.content?.parts?.[0]?.text`. -/
structure ChatEnv where
  geminiKeyPresent : Bool
  questionEmbedOk : Bool
  questionVector : Option (List Int)
  searchError : Option String
  searchData : Option (List (List Char))
  documents : List DocumentRow
  generateOk : Bool
  generateAnswer : List Char → Option (List Char)

/-- Response of the `query-rag` handler: `{ answer }` or the catch-all
500 `{ error }`. -/
inductive ChatResult where
  | ok (answer : List Char)
  | err (msg : String)
deriving DecidableEq

/-- The `relevantContext` computation of `query-rag`: on a search error,
fall back to the first up-to-3 rows of the `documents` table (the query
carries no ordering clause, so the rows come back in table order) joined
with blank lines; on a successful search with at least one chunk, the
chunk contents joined with blank lines; otherwise the empty string. -/
def relevantContext (env : ChatEnv) : List Char :=
  match env.searchError with
  | some _ =>
    let docs := (env.documents.take 3).map (·.content)
    if docs.length > 0 then List.intercalate ['\n', '\n'] docs else []
  | none =>
    match env.searchData with
    | some chunks => if chunks.length > 0 then List.intercalate ['\n', '\n'] chunks else []
    | none => []

/-- The prompt template of `query-rag`, with the context and the
verbatim question interpolated. -/
def buildPrompt (context question : List Char) : List Char :=
  (String.toList "Based on the following context about Hero-Vida data, please answer the user\x27s question. If the information is not available in the context, please say so clearly.\n\nContext:\n")
    ++ context
    ++ (String.toList "\n\nQuestion: ")
    ++ question
    ++ (String.toList "\n\nPlease provide a detailed and accurate answer based only on the information provided in the context.")

/-- The `query-rag` serve handler: check the credential, embed the
question, attempt the similarity search with the recent-documents
fallback, build the prompt, call generation, and fall back to a fixed
apology when the answer text is structurally absent. -/
def queryRag (env : ChatEnv) (question : List Char) : ChatResult :=
  if !env.geminiKeyPresent then .err "Gemini API key not configured"
  else if !env.questionEmbedOk then .err "Failed to generate question embedding"
  else
    match env.questionVector with
    | none => .err "No embedding generated for question"
    | some _ =>
      let prompt := buildPrompt (relevantContext env) question
      if !env.generateOk then .err "Failed to generate response from Gemini"
      else
        match env.generateAnswer prompt with
        | some a => .ok a
        | none => .ok (String.toList "Sorry, I could not generate a response.")

/-- A token free of whitespace characters. -/
def NoWsTok (t : List Char) : Prop := ∀ c ∈ t, isWs c = false

/- Auxiliary list lemmas. -/

theorem tail_dropLast_comm {α : Type} (l : List α) : l.tail.dropLast = l.dropLast.tail := by
  cases l with
  | nil => rfl
  | cons a l =>
    cases l with
    | nil => rfl
    | cons b m => simp [List.dropLast_cons₂]

/- Properties of the `splitWs` scanner. -/

theorem splitWsAux_ne_nil (s cur : List Char) (sep : Bool) : splitWsAux s cur sep ≠ [] := by
  induction s generalizing cur sep with
  | nil => simp [splitWsAux]
  | cons c cs ih =>
    simp only [splitWsAux]
    split
    · split
      · exact ih _ _
      · simp
    · exact ih _ _

theorem splitWs_ne_nil (s : List Char) : splitWs s ≠ [] :=
  splitWsAux_ne_nil s [] false

/-- A run of non-whitespace characters is absorbed into the current
token. -/
theorem splitWsAux_no_ws (s cur : List Char) (h : NoWsTok s) :
    splitWsAux s cur false = [cur.reverse ++ s] := by
  induction s generalizing cur with
  | nil => simp [splitWsAux]
  | cons c cs ih =>
    have hc : isWs c = false := h c (List.mem_cons_self c cs)
    have hcs : NoWsTok cs := fun x hx => h x (List.mem_cons_of_mem c hx)
    simp only [splitWsAux, hc]
    rw [ih (c :: cur) hcs]
    simp

/-- Scanning a whitespace-free token followed by a space emits the token
and switches into separator mode. -/
theorem splitWsAux_token_sep (t : List Char) (ht : NoWsTok t) (cur r : List Char) :
    splitWsAux (t ++ ' ' :: r) cur false = (cur.reverse ++ t) :: splitWsAux r [] true := by
  induction t generalizing cur with
  | nil => simp [splitWsAux, isWs]
  | cons c cs ih =>
    have hc : isWs c = false := ht c (List.mem_cons_self c cs)
    have hcs : NoWsTok cs := fun x hx => ht x (List.mem_cons_of_mem c hx)
    simp only [List.cons_append, splitWsAux, hc, List.append_eq]
    rw [ih hcs (c :: cur)]
    simp

/-- In separator mode, a leading non-whitespace character behaves as in
scanning mode. -/
theorem splitWsAux_sep_eq (c : Char) (cs : List Char) (hc : isWs c = false) :
    splitWsAux (c :: cs) [] true = splitWsAux (c :: cs) [] false := by
  simp [splitWsAux, hc]

/-- `join(' ')` of a single token is the token. -/
theorem joinSp_single (t : List Char) : joinSp [t] = t := by
  simp [joinSp, List.intercalate]

/-- `join(' ')` of two or more tokens puts a single space after the
first. -/
theorem joinSp_cons_cons (t u : List Char) (bs : List (List Char)) :
    joinSp (t :: u :: bs) = t ++ ' ' :: joinSp (u :: bs) := by
  simp [joinSp, List.intercalate, List.intersperse]

/-- Splitting undoes joining for a non-empty token list whose tokens are
whitespace-free and whose inner tokens (neither first nor last) are
non-empty. -/
theorem splitWs_joinSp (b : List (List Char)) (hne : b ≠ [])
    (hws : ∀ t ∈ b, NoWsTok t) (hin : ∀ t ∈ b.dropLast.tail, t ≠ []) :
    splitWs (joinSp b) = b := by
  induction b with
  | nil => exact absurd rfl hne
  | cons t b' ih =>
    cases b' with
    | nil =>
      rw [joinSp_single]
      exact splitWsAux_no_ws t [] (hws t (List.mem_cons_self t []))
    | cons t' bs =>
      rw [joinSp_cons_cons]
      unfold splitWs
      rw [splitWsAux_token_sep t (hws t (by simp)) [] (joinSp (t' :: bs))]
      simp only [List.reverse_nil, List.nil_append]
      have hdrop : (t :: t' :: bs).dropLast.tail = (t' :: bs).dropLast := by
        simp [List.dropLast_cons₂]
      cases t' with
      | nil =>
        cases bs with
        | nil => simp [joinSp, List.intercalate, splitWsAux]
        | cons u us =>
          exfalso
          have hmem : ([] : List Char) ∈ (t :: [] :: u :: us).dropLast.tail := by
            simp [List.dropLast_cons₂]
          exact hin [] hmem rfl
      | cons d ds =>
        have hd : isWs d = false := (hws (d :: ds) (by simp)) d (by simp)
        have hjoin : ∃ X, joinSp ((d :: ds) :: bs) = d :: X := by
          cases bs with
          | nil => exact ⟨ds, by rw [joinSp_single]⟩
          | cons u us =>
            refine ⟨ds ++ ' ' :: joinSp (u :: us), ?_⟩
            rw [joinSp_cons_cons]
            rfl
        obtain ⟨X, hX⟩ := hjoin
        rw [hX, splitWsAux_sep_eq d X hd, ← hX]
        have hrec : splitWs (joinSp ((d :: ds) :: bs)) = (d :: ds) :: bs := by
          apply ih (by simp) (fun x hx => hws x (List.mem_cons_of_mem t hx))
          intro x hx
          apply hin x
          rw [hdrop]
          exact List.tail_subset _ hx
        show t :: splitWs (joinSp ((d :: ds) :: bs)) = t :: (d :: ds) :: bs
        rw [hrec]

/-- Every token produced by the scanner is whitespace-free, provided the
current accumulator is. -/
theorem splitWsAux_tokens_no_ws (s : List Char) :
    ∀ (cur : List Char) (sep : Bool), (∀ c ∈ cur, isWs c = false) →
      ∀ t ∈ splitWsAux s cur sep, NoWsTok t := by
  induction s with
  | nil =>
    intro cur sep hcur t ht
    simp only [splitWsAux, List.mem_singleton] at ht
    subst ht
    intro x hx
    exact hcur x (List.mem_reverse.mp hx)
  | cons c cs ih =>
    intro cur sep hcur t ht
    by_cases hc : isWs c
    · simp only [splitWsAux, hc, if_true] at ht
      cases sep with
      | true => exact ih [] true (by simp) t (by simpa using ht)
      | false =>
        simp only [Bool.false_eq_true, if_false, List.mem_cons] at ht
        cases ht with
        | inl h =>
          subst h
          intro x hx
          exact hcur x (List.mem_reverse.mp hx)
        | inr h => exact ih [] true (by simp) t h
    · have hc' : isWs c = false := by simpa using hc
      simp only [splitWsAux, hc', Bool.false_eq_true, if_false] at ht
      refine ih (c :: cur) false ?_ t ht
      intro x hx
      cases List.mem_cons.mp hx with
      | inl h => rw [h]; exact hc'
      | inr h => exact hcur x h

/-- Every token of `splitWs` is whitespace-free. -/
theorem splitWs_tokens_no_ws (s : List Char) : ∀ t ∈ splitWs s, NoWsTok t :=
  splitWsAux_tokens_no_ws s [] false (by simp)

/-- In separator mode with an empty accumulator, every emitted token
except the last is non-empty; in scanning mode with a non-empty
accumulator likewise. -/
theorem splitWsAux_dropLast_ne_nil (s : List Char) :
    (∀ t ∈ (splitWsAux s [] true).dropLast, t ≠ []) ∧
    (∀ cur : List Char, cur ≠ [] → ∀ t ∈ (splitWsAux s cur false).dropLast, t ≠ []) := by
  induction s with
  | nil =>
    constructor
    · simp [splitWsAux]
    · intro cur hcur t ht
      simp [splitWsAux] at ht
  | cons c cs ih =>
    constructor
    · intro t ht
      by_cases hc : isWs c
      · simp only [splitWsAux, hc, if_true] at ht
        exact ih.1 t ht
      · have hc' : isWs c = false := by simpa using hc
        simp only [splitWsAux, hc', Bool.false_eq_true, if_false] at ht
        exact ih.2 [c] (by simp) t ht
    · intro cur hcur t ht
      by_cases hc : isWs c
      · simp only [splitWsAux, hc, if_true, Bool.false_eq_true, if_false] at ht
        rw [List.dropLast_cons_of_ne_nil (splitWsAux_ne_nil cs [] true)] at ht
        cases List.mem_cons.mp ht with
        | inl h =>
          rw [h]
          simpa [List.reverse_eq_nil_iff] using hcur
        | inr h => exact ih.1 t h
      · have hc' : isWs c = false := by simpa using hc
        simp only [splitWsAux, hc', Bool.false_eq_true, if_false] at ht
        exact ih.2 (c :: cur) (by simp) t ht

/-- Inner tokens of `splitWs` (neither the first nor the last) are
non-empty: only leading or trailing whitespace create empty tokens. -/
theorem splitWs_inner_ne_nil (s : List Char) : ∀ t ∈ (splitWs s).dropLast.tail, t ≠ [] := by
  intro t ht
  unfold splitWs at ht
  cases s with
  | nil => simp [splitWsAux] at ht
  | cons c cs =>
    by_cases hc : isWs c
    · simp only [splitWsAux, hc, if_true, Bool.false_eq_true, if_false] at ht
      rw [List.dropLast_cons_of_ne_nil (splitWsAux_ne_nil cs [] true), List.tail_cons] at ht
      exact (splitWsAux_dropLast_ne_nil cs).1 t ht
    · have hc' : isWs c = false := by simpa using hc
      simp only [splitWsAux, hc', Bool.false_eq_true, if_false] at ht
      exact (splitWsAux_dropLast_ne_nil cs).2 [c] (by simp) t (List.tail_subset _ ht)

/- Properties of the chunking loop. -/

/-- `chunkText` is the single-space join of the token groups. -/
theorem chunkTextAux_eq_map_join (m : Nat) (ws cur : List (List Char)) :
    chunkTextAux m ws cur = (chunkWordsAux m ws cur).map joinSp := by
  induction ws generalizing cur with
  | nil =>
    by_cases h : 0 < cur.length
    · simp [chunkTextAux, chunkWordsAux, h]
    · simp [chunkTextAux, chunkWordsAux, h]
  | cons w ws ih =>
    simp only [chunkTextAux, chunkWordsAux]
    by_cases h : m ≤ cur.length + 1
    · simp [h, ih]
    · simp [h, ih]

/-- The token groups concatenate back to the accumulator followed by the
remaining tokens: no token is lost, duplicated or reordered. -/
theorem chunkWordsAux_flatten (m : Nat) (ws cur : List (List Char)) :
    (chunkWordsAux m ws cur).flatten = cur ++ ws := by
  induction ws generalizing cur with
  | nil =>
    by_cases h : 0 < cur.length
    · simp [chunkWordsAux, h]
    · have hc : cur = [] := by
        cases cur with
        | nil => rfl
        | cons a l => simp at h
      simp [chunkWordsAux, h, hc]
  | cons w ws ih =>
    simp only [chunkWordsAux]
    by_cases h : m ≤ cur.length + 1
    · simp [h, ih]
    · simp [h, ih]

/-- Number of groups: the ceiling of the number of tokens (accumulator
included) divided by the group size. -/
theorem chunkWordsAux_length (m : Nat) (hm : 0 < m) (ws : List (List Char)) :
    ∀ cur : List (List Char), cur.length < m →
      (chunkWordsAux m ws cur).length = (cur.length + ws.length + m - 1) / m := by
  induction ws with
  | nil =>
    intro cur hcur
    by_cases h : 0 < cur.length
    · simp only [chunkWordsAux, h, if_true, List.length_singleton, List.length_nil]
      exact (Nat.div_eq_of_lt_le (by omega) (by omega)).symm
    · have hc : cur.length = 0 := by omega
      simp only [chunkWordsAux, h, if_false, List.length_nil, hc]
      exact (Nat.div_eq_of_lt (by omega)).symm
  | cons w ws ih =>
    intro cur hcur
    simp only [chunkWordsAux, List.length_cons]
    by_cases h : m ≤ (cur ++ [w]).length
    · have hlen : cur.length + 1 = m := by
        have := List.length_append cur [w]
        simp only [List.length_singleton] at this
        omega
      simp only [h, if_true, List.length_cons]
      rw [ih [] (by simpa using hm)]
      have harith : cur.length + (ws.length + 1) + m - 1 = (([] : List (List Char)).length + ws.length + m - 1) + m := by
        simp only [List.length_nil]
        omega
      rw [harith, Nat.add_div_right _ hm]
    · have hlt : cur.length + 1 < m := by
        have := List.length_append cur [w]
        simp only [List.length_singleton] at this
        omega
      simp only [h, if_false]
      rw [ih (cur ++ [w]) (by rw [List.length_append]; simpa using hlt)]
      rw [List.length_append]
      simp only [List.length_singleton]
      congr 1
      omega

/-- Every group except possibly the last has exactly the maximum size. -/
theorem chunkWordsAux_dropLast_size (m : Nat) (ws : List (List Char)) :
    ∀ cur : List (List Char), cur.length < m →
      ∀ g ∈ (chunkWordsAux m ws cur).dropLast, g.length = m := by
  induction ws with
  | nil =>
    intro cur hcur g hg
    by_cases h : 0 < cur.length <;> simp [chunkWordsAux, h] at hg
  | cons w ws ih =>
    intro cur hcur g hg
    simp only [chunkWordsAux] at hg
    by_cases h : m ≤ (cur ++ [w]).length
    · have hlen : cur.length + 1 = m := by
        have := List.length_append cur [w]
        simp only [List.length_singleton] at this
        omega
      simp only [h, if_true] at hg
      cases hrest : chunkWordsAux m ws [] with
      | nil => simp [hrest] at hg
      | cons r rs =>
        rw [hrest, List.dropLast_cons_of_ne_nil (by simp)] at hg
        cases List.mem_cons.mp hg with
        | inl he =>
          rw [he, List.length_append]
          simpa using hlen
        | inr he =>
          have := ih [] (by simp only [List.length_nil]; omega) g
          rw [hrest] at this
          exact this he
    · have hlt : cur.length + 1 < m := by
        have := List.length_append cur [w]
        simp only [List.length_singleton] at this
        omega
      simp only [h, if_false] at hg
      refine ih (cur ++ [w]) ?_ g hg
      rw [List.length_append]
      simpa using hlt

/-- Every group is non-empty and no larger than the maximum size. -/
theorem chunkWordsAux_mem_size (m : Nat) (ws : List (List Char)) :
    ∀ cur : List (List Char), cur.length < m →
      ∀ g ∈ chunkWordsAux m ws cur, g ≠ [] ∧ g.length ≤ m := by
  induction ws with
  | nil =>
    intro cur hcur g hg
    by_cases h : 0 < cur.length
    · simp only [chunkWordsAux, h, if_true, List.mem_singleton] at hg
      subst hg
      exact ⟨List.ne_nil_of_length_pos h, by omega⟩
    · simp [chunkWordsAux, h] at hg
  | cons w ws ih =>
    intro cur hcur g hg
    simp only [chunkWordsAux] at hg
    by_cases h : m ≤ (cur ++ [w]).length
    · have hlen : cur.length + 1 = m := by
        have := List.length_append cur [w]
        simp only [List.length_singleton] at this
        omega
      simp only [h, if_true, List.mem_cons] at hg
      cases hg with
      | inl he =>
        subst he
        refine ⟨by simp, ?_⟩
        rw [List.length_append]
        simpa using Nat.le_of_eq hlen
      | inr he => exact ih [] (by simpa using Nat.lt_of_le_of_lt (Nat.zero_le _) hcur) g he
    · have hlt : cur.length + 1 < m := by
        have := List.length_append cur [w]
        simp only [List.length_singleton] at this
        omega
      simp only [h, if_false] at hg
      refine ih (cur ++ [w]) ?_ g hg
      rw [List.length_append]
      simpa using hlt

/-- Splitting a single whitespace-free token is the identity (as a
one-token list). -/
theorem splitWs_no_ws (t : List Char) (ht : NoWsTok t) : splitWs t = [t] := by
  unfold splitWs
  simpa using splitWsAux_no_ws t [] ht

/-- Splitting each produced chunk back on whitespace and concatenating
recovers the pending tokens (the accumulator followed by the remaining
tokens), provided all tokens are whitespace-free and every pending token
other than the first of the accumulator and the last overall is
non-empty. -/
theorem chunkTextAux_splitWs_flatten (m : Nat) (ws : List (List Char)) :
    ∀ cur : List (List Char), (∀ t ∈ cur, NoWsTok t) → (∀ t ∈ ws, NoWsTok t) →
      (∀ t ∈ (cur.tail ++ ws).dropLast, t ≠ []) →
      ((chunkTextAux m ws cur).map splitWs).flatten = cur ++ ws := by
  induction ws with
  | nil =>
    intro cur h1 _ h3
    by_cases h : 0 < cur.length
    · have hne : cur ≠ [] := List.ne_nil_of_length_pos h
      have hintr : ∀ t ∈ cur.dropLast.tail, t ≠ [] := by
        intro t ht
        apply h3 t
        rw [List.append_nil, tail_dropLast_comm]
        exact ht
      simp only [chunkTextAux, h, if_true, List.map_cons, List.map_nil, List.flatten_cons,
        List.flatten_nil, List.append_nil]
      rw [splitWs_joinSp cur hne h1 hintr]
    · have hc : cur = [] := by
        cases cur with
        | nil => rfl
        | cons a l => simp at h
      simp [chunkTextAux, h, hc]
  | cons w ws ih =>
    intro cur h1 h2 h3
    have hw : NoWsTok w := h2 w (List.mem_cons_self w ws)
    have h2' : ∀ t ∈ ws, NoWsTok t := fun t ht => h2 t (List.mem_cons_of_mem w ht)
    have hcur2ws : ∀ t ∈ cur ++ [w], NoWsTok t := by
      intro t ht
      cases List.mem_append.mp ht with
      | inl hl => exact h1 t hl
      | inr hr => rw [List.mem_singleton.mp hr]; exact hw
    have hws_drop : ∀ t ∈ ws.dropLast, t ≠ [] := by
      intro t ht
      apply h3 t
      rw [List.dropLast_append_of_ne_nil cur.tail (List.cons_ne_nil w ws)]
      apply List.mem_append_right
      cases ws with
      | nil => simp at ht
      | cons u us =>
        rw [List.dropLast_cons_of_ne_nil (List.cons_ne_nil u us)]
        exact List.mem_cons_of_mem w ht
    simp only [chunkTextAux]
    by_cases h : m ≤ (cur ++ [w]).length
    · simp only [h, if_true, List.map_cons, List.flatten_cons]
      have hcur2 : splitWs (joinSp (cur ++ [w])) = cur ++ [w] := by
        apply splitWs_joinSp (cur ++ [w]) (by simp) hcur2ws
        intro t ht
        rw [List.dropLast_concat] at ht
        apply h3 t
        rw [List.dropLast_append_of_ne_nil cur.tail (List.cons_ne_nil w ws)]
        exact List.mem_append_left _ ht
      have hih3 : ∀ t ∈ (([] : List (List Char)).tail ++ ws).dropLast, t ≠ [] := by
        intro t ht
        simp only [List.tail_nil, List.nil_append] at ht
        exact hws_drop t ht
      rw [hcur2, ih [] (by simp) h2' hih3]
      simp
    · simp only [h, if_false]
      have hih3 : ∀ t ∈ ((cur ++ [w]).tail ++ ws).dropLast, t ≠ [] := by
        intro t ht
        cases cur with
        | nil =>
          simp only [List.nil_append, List.tail_cons] at ht
          exact hws_drop t ht
        | cons a cs =>
          apply h3 t
          simp only [List.cons_append, List.tail_cons] at ht ⊢
          rw [List.append_assoc, List.singleton_append] at ht
          exact ht
      rw [ih (cur ++ [w]) hcur2ws h2' hih3]
      simp

/-- C8: for every input text and every maximum chunk size M > 0,
splitting every chunk returned by `chunkText` back into its
whitespace-split words and concatenating them, in order, reproduces
exactly the whitespace-split word sequence of the input: no word is
lost, duplicated or reordered. -/
theorem chunkText_flatten_words (text : List Char) (M : Nat) (hM : 0 < M) :
    ((chunkText text M).map splitWs).flatten = splitWs text := by
  have hnn := splitWs_ne_nil text
  obtain ⟨h, rest, hsplit⟩ := List.exists_cons_of_ne_nil hnn
  have hws : ∀ t ∈ splitWs text, NoWsTok t := splitWs_tokens_no_ws text
  have hin : ∀ t ∈ (splitWs text).dropLast.tail, t ≠ [] := splitWs_inner_ne_nil text
  unfold chunkText
  rw [hsplit] at hws hin ⊢
  have hh : NoWsTok h := hws h (List.mem_cons_self h rest)
  have hrest_ws : ∀ t ∈ rest, NoWsTok t := fun t ht => hws t (List.mem_cons_of_mem h ht)
  have hrest_inner : ∀ t ∈ rest.dropLast, t ≠ [] := by
    intro t ht
    cases rest with
    | nil => simp at ht
    | cons u us =>
      apply hin t
      rw [List.dropLast_cons_of_ne_nil (List.cons_ne_nil u us), List.tail_cons]
      exact ht
  simp only [chunkTextAux, List.nil_append]
  by_cases hc : M ≤ [h].length
  · simp only [hc, if_true, List.map_cons, List.flatten_cons]
    rw [joinSp_single, splitWs_no_ws h hh]
    rw [chunkTextAux_splitWs_flatten M rest [] (by simp) hrest_ws
      (by simpa using hrest_inner)]
    simp
  · simp only [hc, if_false]
    rw [chunkTextAux_splitWs_flatten M rest [h]
      (by intro t ht; rw [List.mem_singleton.mp ht]; exact hh) hrest_ws
      (by simpa using hrest_inner)]
    simp

/-- Number of chunks in closed form: the ceiling of the token count
divided by the maximum size. -/
theorem chunkText_length_eq (text : List Char) (M : Nat) (hM : 0 < M) :
    (chunkText text M).length = ((splitWs text).length + M - 1) / M := by
  unfold chunkText
  rw [chunkTextAux_eq_map_join, List.length_map,
    chunkWordsAux_length M hM (splitWs text) [] (by simpa using hM)]
  simp

/-- C2 (amended): for every text and maximum size M > 0, `chunkText`
returns exactly `ceil(N / M)` chunks, where `N` is the length of the
JavaScript whitespace-split token list of the text; since that list is
never empty (the empty string splits to a single empty token), any input
with `N ≤ M` tokens — the empty string included — yields exactly one
chunk, not zero. -/
theorem chunkText_count (text : List Char) (M : Nat) (hM : 0 < M) :
    (chunkText text M).length = ((splitWs text).length + M - 1) / M ∧
    ((splitWs text).length ≤ M → (chunkText text M).length = 1) := by
  have hlen := chunkText_length_eq text M hM
  refine ⟨hlen, fun hle => ?_⟩
  rw [hlen]
  have hpos : 0 < (splitWs text).length := List.length_pos.mpr (splitWs_ne_nil text)
  exact Nat.div_eq_of_lt_le (by omega) (by omega)

/-- C2 (counterexample): on the empty input string `chunkText` returns
one chunk — the empty string — not an empty sequence, because the
JavaScript split of the empty string is the one-element list containing
the empty string. -/
theorem chunkText_empty_counterexample :
    chunkText [] 500 = [[]] ∧ chunkText [] 500 ≠ [] := by decide

/-- Witness instantiating `chunkText_count` on a concrete three-word
input. -/
theorem chunkText_count_witness :
    0 < 500 ∧ (splitWs ['a', ' ', 'b']).length ≤ 500 ∧
      (chunkText ['a', ' ', 'b'] 500).length = 1 :=
  ⟨by decide, by decide, (chunkText_count ['a', ' ', 'b'] 500 (by decide)).2 (by decide)⟩

/-- C7 (amended): for every text and maximum size M > 0, the chunks are
the single-space joins of consecutive token groups covering the
whitespace-split token list exactly; every group except possibly the
last has exactly M tokens and every group is non-empty with at most M
tokens.  Because split tokens can be the empty string (leading or
trailing whitespace), a chunk — the final one included — can be the
empty string even for non-empty input. -/
theorem chunkText_structure (text : List Char) (M : Nat) (hM : 0 < M) :
    ∃ gs : List (List (List Char)),
      gs.flatten = splitWs text ∧
      chunkText text M = gs.map joinSp ∧
      (∀ g ∈ gs.dropLast, g.length = M) ∧
      (∀ g ∈ gs, g ≠ [] ∧ g.length ≤ M) := by
  refine ⟨chunkWords (splitWs text) M, ?_, ?_, ?_, ?_⟩
  · rw [show chunkWords (splitWs text) M = chunkWordsAux M (splitWs text) [] from rfl]
    rw [chunkWordsAux_flatten]
    simp
  · exact chunkTextAux_eq_map_join M (splitWs text) []
  · exact chunkWordsAux_dropLast_size M (splitWs text) [] (by simpa using hM)
  · exact chunkWordsAux_mem_size M (splitWs text) [] (by simpa using hM)

/-- C7 (counterexample): for the non-empty input "a " (trailing space)
with maximum size 1, the final chunk returned by `chunkText` is the
empty string: the trailing whitespace contributes an empty split token
which becomes an empty final chunk. -/
theorem chunkText_last_empty_counterexample :
    (chunkText ['a', ' '] 1).getLast? = some [] ∧ ['a', ' '] ≠ ([] : List Char) := by decide

/-- Witness instantiating `chunkText_structure` on a concrete input. -/
theorem chunkText_structure_witness :
    0 < 2 ∧ ∃ gs : List (List (List Char)),
      gs.flatten = splitWs ['a', ' ', 'b'] ∧
      chunkText ['a', ' ', 'b'] 2 = gs.map joinSp ∧
      (∀ g ∈ gs.dropLast, g.length = 2) ∧
      (∀ g ∈ gs, g ≠ [] ∧ g.length ≤ 2) :=
  ⟨by decide, chunkText_structure ['a', ' ', 'b'] 2 (by decide)⟩

/-- Witness instantiating `chunkText_flatten_words` on a concrete
three-word input split into two chunks. -/
theorem chunkText_flatten_words_witness :
    0 < 2 ∧ ((chunkText ['a', ' ', 'b', ' ', 'c'] 2).map splitWs).flatten =
      splitWs ['a', ' ', 'b', ' ', 'c'] :=
  ⟨by decide, chunkText_flatten_words ['a', ' ', 'b', ' ', 'c'] 2 (by decide)⟩

/- Properties of the embedding loop. -/

/-- The embedding loop appends to its accumulator the rows described by
`embRowsSpec`, with the next `chunk_index` equal to the accumulator
length. -/
theorem buildEmbeddingsAux_eq (d : Nat) (f : Nat → Option (List Int)) (cs : List (List Char)) :
    ∀ (i : Nat) (acc : List EmbeddingRow),
      buildEmbeddingsAux d f cs i acc = acc ++ embRowsSpec d f cs i acc.length := by
  induction cs with
  | nil => intro i acc; simp [buildEmbeddingsAux, embRowsSpec]
  | cons c cs ih =>
    intro i acc
    cases hf : f i with
    | some v =>
      simp only [buildEmbeddingsAux, embRowsSpec, hf]
      rw [ih (i + 1)]
      simp
    | none =>
      simp only [buildEmbeddingsAux, embRowsSpec, hf]
      exact ih (i + 1) acc

/-- Length of the produced rows: the number of chunk positions whose
embedding call succeeds. -/
theorem embRowsSpec_length (d : Nat) (f : Nat → Option (List Int)) (cs : List (List Char)) :
    ∀ (i base : Nat),
      (embRowsSpec d f cs i base).length =
        (List.range' i cs.length).countP (fun k => (f k).isSome) := by
  induction cs with
  | nil => intro i base; simp [embRowsSpec]
  | cons c cs ih =>
    intro i base
    cases hf : f i with
    | some v =>
      simp only [embRowsSpec, hf, List.length_cons, List.range'_succ, List.countP_cons, hf]
      rw [ih (i + 1) (base + 1)]
      simp [hf]
    | none =>
      simp only [embRowsSpec, hf, List.length_cons, List.range'_succ, List.countP_cons]
      rw [ih (i + 1) base]
      simp [hf]

/-- The stored chunk indices are consecutive starting at `base`. -/
theorem embRowsSpec_map_index (d : Nat) (f : Nat → Option (List Int)) (cs : List (List Char)) :
    ∀ (i base : Nat),
      (embRowsSpec d f cs i base).map (fun r => r.chunk_index) =
        List.range' base (embRowsSpec d f cs i base).length := by
  induction cs with
  | nil => intro i base; simp [embRowsSpec]
  | cons c cs ih =>
    intro i base
    cases hf : f i with
    | some v =>
      simp only [embRowsSpec, hf, List.map_cons, List.length_cons, List.range'_succ]
      rw [ih (i + 1) (base + 1)]
    | none =>
      simp only [embRowsSpec, hf]
      exact ih (i + 1) base

/-- The row produced for the chunk at offset `j` carries as index the
base plus the number of successes among the intervening positions. -/
theorem embRowsSpec_mem (d : Nat) (f : Nat → Option (List Int)) (cs : List (List Char)) :
    ∀ (i base j : Nat) (hj : j < cs.length) (v : List Int), f (i + j) = some v →
      (⟨d, cs.get ⟨j, hj⟩, v,
        base + (List.range' i j).countP (fun k => (f k).isSome)⟩ : EmbeddingRow) ∈
        embRowsSpec d f cs i base := by
  induction cs with
  | nil =>
    intro i base j hj
    simp at hj
  | cons c cs ih =>
    intro i base j hj v hv
    cases j with
    | zero =>
      have hv' : f i = some v := by simpa using hv
      simp only [embRowsSpec, hv', List.get, List.range'_zero, List.countP_nil, Nat.add_zero]
      exact List.mem_cons_self _ _
    | succ j =>
      have hv' : f ((i + 1) + j) = some v := by
        rw [show (i + 1) + j = i + (j + 1) by omega]
        exact hv
      have hj' : j < cs.length := by simpa using Nat.lt_of_succ_lt_succ hj
      have hcount : (List.range' i (j + 1)).countP (fun k => (f k).isSome) =
          (List.range' (i + 1) j).countP (fun k => (f k).isSome) +
            (if (f i).isSome then 1 else 0) := by
        rw [List.range'_succ, List.countP_cons]
      cases hf : f i with
      | some w =>
        simp only [embRowsSpec, hf]
        apply List.mem_cons_of_mem
        have hmem := ih (i + 1) (base + 1) j hj' v hv'
        have harith : base + 1 + (List.range' (i + 1) j).countP (fun k => (f k).isSome) =
            base + (List.range' i (j + 1)).countP (fun k => (f k).isSome) := by
          rw [hcount, hf]
          simp
          omega
        rw [← harith]
        exact hmem
      | none =>
        simp only [embRowsSpec, hf]
        have hmem := ih (i + 1) base j hj' v hv'
        have harith : base + (List.range' (i + 1) j).countP (fun k => (f k).isSome) =
            base + (List.range' i (j + 1)).countP (fun k => (f k).isSome) := by
          rw [hcount, hf]
          simp
        rw [← harith]
        exact hmem

/-- Roundtrip instance used by the concrete witnesses: a text of `n`
single-letter words splits back to its `n` tokens. -/
theorem splitWs_joinSp_replicate (n : Nat) (hn : 0 < n) :
    splitWs (joinSp (List.replicate n ['a'])) = List.replicate n ['a'] := by
  apply splitWs_joinSp
  · exact List.ne_nil_of_length_pos (by simpa using hn)
  · intro t ht
    rw [List.eq_of_mem_replicate ht]
    intro c hc
    rw [List.mem_singleton.mp hc]
    decide
  · intro t ht
    have h1 : t ∈ List.replicate n ['a'] :=
      List.dropLast_subset _ (List.tail_subset _ ht)
    rw [List.eq_of_mem_replicate h1]
    simp

/-- Every produced row references the inserted document. -/
theorem embRowsSpec_document_id (d : Nat) (f : Nat → Option (List Int)) (cs : List (List Char)) :
    ∀ (i base : Nat), ∀ r ∈ embRowsSpec d f cs i base, r.document_id = d := by
  induction cs with
  | nil => intro i base r hr; simp [embRowsSpec] at hr
  | cons c cs ih =>
    intro i base r hr
    cases hf : f i with
    | some v =>
      simp only [embRowsSpec, hf, List.mem_cons] at hr
      cases hr with
      | inl h => rw [h]
      | inr h => exact ih (i + 1) (base + 1) r h
    | none =>
      simp only [embRowsSpec, hf] at hr
      exact ih (i + 1) base r hr

/-- C10: for every ingestion run where the download and document insert
succeed, the credential is present, and every embedding call fails, the
run attempts no embeddings insert (the result does not depend on the
batch-insert outcome `embedInsert`), the document row remains persisted,
and the run still reports success with `chunksProcessed = 0`. -/
theorem processFile_zero_embeddings (env : IngestEnv) (fileName fileUrl fileType : String)
    (db : DB) (data : List Char)
    (hdl : env.download = .ok data)
    (hdoc : env.docInsert = none)
    (hkey : env.geminiKeyPresent = true)
    (hemb : ∀ i, env.embed i = none) :
    processFile env fileName fileUrl fileType db =
      (⟨db.documents ++ [⟨env.nextDocId, fileName, fileType, extractText fileType data, fileUrl⟩],
        db.embeddings⟩, .ok env.nextDocId 0) := by
  have hrows : ∀ (cs : List (List Char)) (i : Nat),
      buildEmbeddingsAux env.nextDocId env.embed cs i [] = [] := by
    intro cs
    induction cs with
    | nil => intro i; rfl
    | cons c cs ih =>
      intro i
      simp only [buildEmbeddingsAux, hemb i]
      exact ih (i + 1)
  simp [processFile, hdl, hdoc, hkey, hrows]

/-- Witness instantiating `processFile_zero_embeddings` on a concrete
run whose batch insert would fail if it were attempted. -/
theorem processFile_zero_embeddings_witness :
    processFile ⟨.ok ['x'], none, 3, true, fun _ => none, some "zzz"⟩
        "f.csv" "u" "text/csv" ⟨[], []⟩ =
      (⟨[⟨3, "f.csv", "text/csv", ['x'], "u"⟩], []⟩, .ok 3 0) :=
  processFile_zero_embeddings _ "f.csv" "u" "text/csv" ⟨[], []⟩ ['x'] rfl rfl rfl (fun _ => rfl)

/-- C1 (code evaluation): a PDF upload is not rejected: the run decodes
the raw bytes as text, persists a document row whose content is those
bytes, and returns success, even though no PDF text extractor exists. -/
theorem processFile_pdf_not_rejected :
    processFile ⟨.ok ['%', 'P', 'D', 'F'], none, 1, true, fun _ => none, none⟩
        "doc.pdf" "u" "application/pdf" ⟨[], []⟩ =
      (⟨[⟨1, "doc.pdf", "application/pdf", ['%', 'P', 'D', 'F'], "u"⟩], []⟩, .ok 1 0) := by
  decide

/-- C3 (amended): when the embeddings batch insert fails after the
document row was inserted, the run returns the persistence error, the
embeddings table is unchanged — but the document row remains persisted:
the run performs no cleanup. -/
theorem processFile_insert_failure_keeps_document (env : IngestEnv)
    (fileName fileUrl fileType : String) (db : DB) (data : List Char) (e : String)
    (hdl : env.download = .ok data)
    (hdoc : env.docInsert = none)
    (hkey : env.geminiKeyPresent = true)
    (hins : env.embedInsert = some e)
    (hnz : 0 < (buildEmbeddingsAux env.nextDocId env.embed
      (chunkText (extractText fileType data) 500) 0 []).length) :
    processFile env fileName fileUrl fileType db =
      (⟨db.documents ++ [⟨env.nextDocId, fileName, fileType, extractText fileType data, fileUrl⟩],
        db.embeddings⟩, .err ("Failed to store embeddings: " ++ e)) := by
  simp [processFile, hdl, hdoc, hkey, hins, hnz]

/-- C3 (counterexample): a concrete run that aborts with a persistence
failure on the embeddings insert, after which the document row still
exists in the database. -/
theorem processFile_insert_failure_counterexample :
    (processFile ⟨.ok ['x'], none, 1, true, fun _ => some [2], some "boom"⟩
        "f.csv" "u" "text/csv" ⟨[], []⟩).2 = .err "Failed to store embeddings: boom" ∧
    (processFile ⟨.ok ['x'], none, 1, true, fun _ => some [2], some "boom"⟩
        "f.csv" "u" "text/csv" ⟨[], []⟩).1.documents =
      [⟨1, "f.csv", "text/csv", ['x'], "u"⟩] := by
  decide

/-- Witness instantiating `processFile_insert_failure_keeps_document` on
a concrete run. -/
theorem processFile_insert_failure_witness :
    processFile ⟨.ok ['x'], none, 1, true, fun _ => some [2], some "boom"⟩
        "f.csv" "u" "text/csv" ⟨[], []⟩ =
      (⟨[⟨1, "f.csv", "text/csv", ['x'], "u"⟩], []⟩,
        .err ("Failed to store embeddings: " ++ "boom")) :=
  processFile_insert_failure_keeps_document _ "f.csv" "u" "text/csv" ⟨[], []⟩ ['x'] "boom"
    rfl rfl rfl rfl (by decide)

/-- C5: for every ingestion run whose text chunks into exactly three
pieces, where the embedding call fails for exactly one of the three
chunks and everything else succeeds, the run still completes
successfully and reports `chunksProcessed = 2`. -/
theorem processFile_one_embed_failure (env : IngestEnv) (fileName fileUrl fileType : String)
    (db : DB) (data : List Char) (j : Nat)
    (hdl : env.download = .ok data)
    (hdoc : env.docInsert = none)
    (hkey : env.geminiKeyPresent = true)
    (hins : env.embedInsert = none)
    (hchunks : (chunkText (extractText fileType data) 500).length = 3)
    (hj : j < 3)
    (hfail : env.embed j = none)
    (hsucc : ∀ i, i < 3 → i ≠ j → (env.embed i).isSome) :
    (processFile env fileName fileUrl fileType db).2 = .ok env.nextDocId 2 := by
  have hrows : (buildEmbeddingsAux env.nextDocId env.embed
      (chunkText (extractText fileType data) 500) 0 []).length = 2 := by
    rw [buildEmbeddingsAux_eq, List.length_append, embRowsSpec_length, hchunks]
    have h3 : List.range' 0 3 = [0, 1, 2] := rfl
    rw [h3]
    interval_cases j
    · have h1 := hsucc 1 (by omega) (by omega)
      have h2 := hsucc 2 (by omega) (by omega)
      simp [List.countP_cons, hfail, h1, h2]
    · have h1 := hsucc 0 (by omega) (by omega)
      have h2 := hsucc 2 (by omega) (by omega)
      simp [List.countP_cons, hfail, h1, h2]
    · have h1 := hsucc 0 (by omega) (by omega)
      have h2 := hsucc 1 (by omega) (by omega)
      simp [List.countP_cons, hfail, h1, h2]
  simp [processFile, hdl, hdoc, hkey, hins, hrows]

/-- Witness instantiating `processFile_one_embed_failure`: a 1001-word
text chunks into three pieces and the second embedding call fails. -/
theorem processFile_one_embed_failure_witness :
    (processFile ⟨.ok (joinSp (List.replicate 1001 ['a'])), none, 5, true,
        fun i => if i = 1 then none else some [3], none⟩
      "f.csv" "u" "text/csv" ⟨[], []⟩).2 = .ok 5 2 := by
  have hN : (splitWs (joinSp (List.replicate 1001 ['a']))).length = 1001 := by
    rw [splitWs_joinSp_replicate 1001 (by omega)]
    exact List.length_replicate _ _
  have hext : extractText "text/csv" (joinSp (List.replicate 1001 ['a'])) =
      joinSp (List.replicate 1001 ['a']) := rfl
  have hchunks :
      (chunkText (extractText "text/csv" (joinSp (List.replicate 1001 ['a']))) 500).length = 3 := by
    rw [hext, chunkText_length_eq _ 500 (by omega), hN]
  apply processFile_one_embed_failure _ "f.csv" "u" "text/csv" ⟨[], []⟩
    (joinSp (List.replicate 1001 ['a'])) 1 rfl rfl rfl rfl hchunks (by omega) rfl
  intro i h1 h2
  interval_cases i
  · simp
  · exact absurd rfl h2
  · simp

/-- C6: for every ingestion of a 1200-word text file declared with the
CSV text type, with all embedding calls succeeding, exactly three
embedding records are persisted for the document, carrying chunk indices
0, 1 and 2, and the response reports `chunksProcessed = 3`. -/
theorem processFile_1200_words (env : IngestEnv) (fileName fileUrl : String)
    (db : DB) (data : List Char)
    (hdl : env.download = .ok data)
    (hdoc : env.docInsert = none)
    (hkey : env.geminiKeyPresent = true)
    (hins : env.embedInsert = none)
    (hN : (splitWs data).length = 1200)
    (hemb : ∀ i, (env.embed i).isSome) :
    ∃ rows : List EmbeddingRow,
      processFile env fileName fileUrl "text/csv" db =
        (⟨db.documents ++ [⟨env.nextDocId, fileName, "text/csv", data, fileUrl⟩],
          db.embeddings ++ rows⟩, .ok env.nextDocId 3) ∧
      rows.length = 3 ∧
      rows.map (fun r => r.chunk_index) = [0, 1, 2] ∧
      ∀ r ∈ rows, r.document_id = env.nextDocId := by
  have hext : extractText "text/csv" data = data := rfl
  have hchunks : (chunkText data 500).length = 3 := by
    rw [chunkText_length_eq _ 500 (by omega), hN]
  refine ⟨buildEmbeddingsAux env.nextDocId env.embed (chunkText data 500) 0 [], ?_, ?_, ?_, ?_⟩
  · have hlen : (buildEmbeddingsAux env.nextDocId env.embed (chunkText data 500) 0 []).length = 3 := by
      rw [buildEmbeddingsAux_eq, List.length_append, embRowsSpec_length, hchunks]
      have hall : (List.range' 0 3).countP (fun k => (env.embed k).isSome) =
          (List.range' 0 3).length := List.countP_eq_length.mpr (fun a _ => hemb a)
      rw [hall]
      rfl
    simp [processFile, hdl, hdoc, hkey, hins, hext, hlen]
  · rw [buildEmbeddingsAux_eq, List.length_append, embRowsSpec_length, hchunks]
    have hall : (List.range' 0 3).countP (fun k => (env.embed k).isSome) =
        (List.range' 0 3).length := List.countP_eq_length.mpr (fun a _ => hemb a)
    rw [hall]
    rfl
  · rw [buildEmbeddingsAux_eq]
    simp only [List.nil_append, List.length_nil]
    rw [embRowsSpec_map_index, embRowsSpec_length, hchunks]
    have hall : (List.range' 0 3).countP (fun k => (env.embed k).isSome) =
        (List.range' 0 3).length := List.countP_eq_length.mpr (fun a _ => hemb a)
    rw [hall]
    rfl
  · intro r hr
    rw [buildEmbeddingsAux_eq] at hr
    simp only [List.nil_append, List.length_nil] at hr
    exact embRowsSpec_document_id env.nextDocId env.embed (chunkText data 500) 0 0 r hr

/-- Witness instantiating `processFile_1200_words` on a concrete
1200-word upload. -/
theorem processFile_1200_words_witness :
    ∃ rows : List EmbeddingRow,
      processFile ⟨.ok (joinSp (List.replicate 1200 ['a'])), none, 9, true,
          fun _ => some [7], none⟩ "f.csv" "u" "text/csv" ⟨[], []⟩ =
        (⟨[⟨9, "f.csv", "text/csv", joinSp (List.replicate 1200 ['a']), "u"⟩],
          rows⟩, .ok 9 3) ∧
      rows.length = 3 ∧
      rows.map (fun r => r.chunk_index) = [0, 1, 2] ∧
      ∀ r ∈ rows, r.document_id = 9 := by
  have hN : (splitWs (joinSp (List.replicate 1200 ['a']))).length = 1200 := by
    rw [splitWs_joinSp_replicate 1200 (by omega)]
    exact List.length_replicate _ _
  exact processFile_1200_words _ "f.csv" "u" ⟨[], []⟩ _ rfl rfl rfl rfl hN (fun i => rfl)

/-- C9: the `chunk_index` stored in each embedding record equals the
number of rows accumulated before it, so the stored indices always form
the contiguous sequence 0..k-1 over the k successfully embedded chunks;
the row for the chunk at position `j` carries index `chunkIndexAt f j`
(the number of successes before `j`), which is strictly smaller than `j`
whenever some earlier chunk failed. -/
theorem buildEmbeddings_chunk_index (d : Nat) (f : Nat → Option (List Int))
    (cs : List (List Char)) (j : Nat) (v : List Int) (hj : j < cs.length)
    (hv : f j = some v) :
    ((buildEmbeddingsAux d f cs 0 []).map (fun r => r.chunk_index) =
      List.range (buildEmbeddingsAux d f cs 0 []).length) ∧
    (⟨d, cs.get ⟨j, hj⟩, v, chunkIndexAt f j⟩ : EmbeddingRow) ∈ buildEmbeddingsAux d f cs 0 [] ∧
    ((∃ i, i < j ∧ f i = none) → chunkIndexAt f j < j) := by
  refine ⟨?_, ?_, ?_⟩
  · rw [buildEmbeddingsAux_eq]
    simp only [List.nil_append, List.length_nil]
    rw [embRowsSpec_map_index, List.range_eq_range']
  · rw [buildEmbeddingsAux_eq]
    simp only [List.nil_append, List.length_nil]
    have hmem := embRowsSpec_mem d f cs 0 0 j hj v (by simpa using hv)
    simpa [chunkIndexAt, List.range_eq_range'] using hmem
  · rintro ⟨i, hij, hnone⟩
    unfold chunkIndexAt
    have hle : (List.range j).countP (fun k => (f k).isSome) ≤ (List.range j).length :=
      List.countP_le_length _
    rcases Nat.lt_or_ge ((List.range j).countP (fun k => (f k).isSome)) j with h | h
    · exact h
    · exfalso
      have heq : (List.range j).countP (fun k => (f k).isSome) = (List.range j).length := by
        simp only [List.length_range] at hle ⊢
        omega
      have hall := List.countP_eq_length.mp heq i (List.mem_range.mpr hij)
      rw [hnone] at hall
      simp at hall

/-- Witness instantiating `buildEmbeddings_chunk_index`: three chunks,
the first embedding call fails, the chunk at position 2 is stored with
index 1 < 2. -/
theorem buildEmbeddings_chunk_index_witness :
    (fun i => if i = 0 then none else some ([1] : List Int)) 2 = some [1] ∧
    ((buildEmbeddingsAux 7 (fun i => if i = 0 then none else some ([1] : List Int))
        [['a'], ['b'], ['c']] 0 []).map (fun r => r.chunk_index) =
      List.range (buildEmbeddingsAux 7 (fun i => if i = 0 then none else some ([1] : List Int))
        [['a'], ['b'], ['c']] 0 []).length) ∧
    ((⟨7, ['c'], [1], chunkIndexAt (fun i => if i = 0 then none else some ([1] : List Int)) 2⟩ :
        EmbeddingRow) ∈ buildEmbeddingsAux 7 (fun i => if i = 0 then none else some ([1] : List Int))
        [['a'], ['b'], ['c']] 0 []) ∧
    chunkIndexAt (fun i => if i = 0 then none else some ([1] : List Int)) 2 < 2 := by
  have h := buildEmbeddings_chunk_index 7 (fun i => if i = 0 then none else some ([1] : List Int))
    [['a'], ['b'], ['c']] 2 [1] (by decide) rfl
  exact ⟨rfl, h.1, h.2.1, h.2.2 ⟨0, by omega, rfl⟩⟩

set_option maxRecDepth 8192 in
/-- C4 (code evaluation): with four documents in creation order and a
failing similarity search, the fallback answers without error, but its
context is the content of the first three table rows — the three oldest
documents, since the query carries no ordering clause — not the three
most recently created ones. -/
theorem queryRag_fallback_not_recent :
    queryRag
        ⟨true, true, some [1], some "missing", none,
          [⟨1, "a", "t", ['A'], "u"⟩, ⟨2, "b", "t", ['B'], "u"⟩,
            ⟨3, "c", "t", ['C'], "u"⟩, ⟨4, "d", "t", ['D'], "u"⟩],
          true, fun p => some p⟩ ['q'] =
      .ok (buildPrompt ['A', '\n', '\n', 'B', '\n', '\n', 'C'] ['q']) ∧
    relevantContext
        ⟨true, true, some [1], some "missing", none,
          [⟨1, "a", "t", ['A'], "u"⟩, ⟨2, "b", "t", ['B'], "u"⟩,
            ⟨3, "c", "t", ['C'], "u"⟩, ⟨4, "d", "t", ['D'], "u"⟩],
          true, fun p => some p⟩ ≠
      List.intercalate ['\n', '\n'] [['D'], ['C'], ['B']] := by
  decide

end HeroVida
